import Mathlib

/-!
Shallow embedding of the page engine of Cache-FastMmap
(src/Cache-FastMmap-CImpl/mmap_cache.c) and proofs about it.

Modelling conventions:
* Machine 32-bit words (`MU32`) are modelled as `Nat`; the hash function,
  where 32-bit wraparound genuinely matters, takes every step modulo 2^32.
  Header counters and times are `Nat` (their theorems carry the
  consistency hypotheses under which the C code never wraps them).
* A page's slot table (`num_slots` 32-bit offsets at byte 32 of the page)
  is a `List Nat`; the key/value heap is an association list from byte
  offsets to records, mirroring `S_Ptr(base, data_offset)` reads.
* Keys and values are byte lists (`List Nat`).
* Reads that the C code would perform through a dangling offset (a used
  slot whose offset does not address a record) are modelled as misses;
  all theorems about such paths carry well-formedness hypotheses that
  keep them unreachable, matching the DEBUG `ASSERT`s in the source.
-/

/-- Record header plus key and value bytes, as laid out by `mmc_write`:
six 32-bit words (`last_access`, `expire_time`, `slot_hash`, `flags`,
`key_len`, `val_len`) followed by key bytes and value bytes.  `key_len`
and `val_len` are implicit as the list lengths. -/
structure Record where
  last_access : Nat
  expire_time : Nat
  slot_hash : Nat
  flags : Nat
  key : List Nat
  val : List Nat
deriving DecidableEq

/-- Page state: the five header counters of the C page header
(`P_NumSlots` .. `P_FreeBytes`), the magic word, the slot table and the
heap.  `page_size` is the cache-wide `c_page_size`. -/
structure Page where
  magic : Nat
  page_size : Nat
  num_slots : Nat
  free_slots : Nat
  old_slots : Nat
  free_data : Nat
  free_bytes : Nat
  slots : List Nat
  heap : List (Nat × Record)
deriving DecidableEq

/-- P_HEADERSIZE in the source: 32 bytes of header before the slot table. -/
def P_HEADERSIZE : Nat := 32

/-- MAGIC constant 0x92f7e3b1 used for the page magic and the hash seed. -/
def MAGIC : Nat := 0x92f7e3b1

/-- ROUNDLEN macro: `(l) += 3 - (((l)-1) & 3)`, i.e. round up to a
multiple of 4.  All call sites have `l ≥ 24`, where this agrees with the
C macro's 32-bit arithmetic. -/
def ROUNDLEN (l : Nat) : Nat := l + (3 - (l - 1) % 4)

/-- KV_SlotLen macro: `sizeof(MU32)*6 + key_len + val_len`. -/
def KV_SlotLen (key_len val_len : Nat) : Nat := 24 + key_len + val_len

/-- Rounded on-heap size of a record (`S_SlotLen` followed by `ROUNDLEN`). -/
def recSize (r : Record) : Nat := ROUNDLEN (KV_SlotLen r.key.length r.val.length)

/-- Key comparison step of `_mmc_find_slot`: fetch the record at
`data_offset` and compare stored key length and bytes with the query. -/
def keyMatches (heap : List (Nat × Record)) (off : Nat) (key : List Nat) : Bool :=
  match heap.lookup off with
  | some r => r.key = key
  | none => false

/-- Probe loop of `_mmc_find_slot`.  `n` is `p_num_slots` (the wrap
point `slots_end`), the second `Nat` argument is the current slot index,
the third is `slots_left`.  Mode 0 = read, 1 = write, 2 = delete:
a `data_offset = 0` slot always stops the probe, a tombstone
(`data_offset = 1`) stops it only in write mode, and a used slot stops
it when its key matches. -/
def findSlotAux (slots : List Nat) (heap : List (Nat × Record)) (key : List Nat)
    (mode : Nat) (n : Nat) : Nat → Nat → Option Nat
  | _, 0 => none
  | idx, fuel + 1 =>
    let off := slots.getD idx 0
    if off = 0 then some idx
    else if off = 1 then
      if mode = 1 then some idx
      else findSlotAux slots heap key mode n (if idx + 1 = n then 0 else idx + 1) fuel
    else if keyMatches heap off key then some idx
    else findSlotAux slots heap key mode n (if idx + 1 = n then 0 else idx + 1) fuel

/-- _mmc_find_slot: start at `hash_slot % p_num_slots` and probe at most
`p_num_slots` slots. -/
def findSlot (p : Page) (hash_slot : Nat) (key : List Nat) (mode : Nat) : Option Nat :=
  findSlotAux p.slots p.heap key mode p.num_slots (hash_slot % p.num_slots) p.num_slots

/-- _mmc_delete_slot: set the slot's offset to 1 (tombstone) and bump
`free_slots` and `old_slots`. -/
def deleteSlot (p : Page) (j : Nat) : Page :=
  { p with slots := p.slots.set j 1,
           free_slots := p.free_slots + 1,
           old_slots := p.old_slots + 1 }

/-- Update of `S_LastAccess(base_det) = now` performed by a read hit. -/
def setLastAccess (heap : List (Nat × Record)) (off now : Nat) : List (Nat × Record) :=
  heap.map fun e => if e.1 = off then (e.1, { e.2 with last_access := now }) else e

/-- mmc_read: find in read mode; on a used slot, tombstone and miss if
expired (`expire_time ≠ 0 ∧ now > expire_time`), otherwise update
`last_access` and return value bytes and flags. -/
def mmc_read (p : Page) (hash_slot : Nat) (key : List Nat) (now : Nat) :
    Option (List Nat × Nat) × Page :=
  match findSlot p hash_slot key 0 with
  | none => (none, p)
  | some j =>
    let off := p.slots.getD j 0
    if off = 0 then (none, p)
    else
      match p.heap.lookup off with
      | none => (none, p)
      | some r =>
        if r.expire_time ≠ 0 ∧ now > r.expire_time then (none, deleteSlot p j)
        else (some (r.val, r.flags), { p with heap := setLastAccess p.heap off now })

/-- Record assembled by the store block of `mmc_write`:
`last_access = now`, `expire_time = now + expire_time` or `0` when the
cache-wide `expire_time` parameter `es` is zero. -/
def writeRecord (hash_slot flags : Nat) (key val : List Nat) (now es : Nat) :
    Record :=
  { last_access := now
    expire_time := if es = 0 then 0 else now + es
    slot_hash := hash_slot
    flags := flags
    key := key
    val := val }

/-- Store block of `mmc_write` (lines 669-703): append the record at
`free_data`, point slot `j` at it, decrement `free_slots`, decrement
`old_slots` when the slot was a tombstone, and advance `free_data` and
`free_bytes` by the rounded length. -/
def writeStore (p : Page) (j hash_slot flags : Nat) (key val : List Nat)
    (now es : Nat) : Page :=
  let kvlen := ROUNDLEN (KV_SlotLen key.length val.length)
  { p with heap := (p.free_data, writeRecord hash_slot flags key val now es) :: p.heap,
           slots := p.slots.set j p.free_data,
           free_slots := p.free_slots - 1,
           old_slots := if p.slots.getD j 0 = 1 then p.old_slots - 1
                        else p.old_slots,
           free_data := p.free_data + kvlen,
           free_bytes := p.free_bytes - kvlen }

/-- mmc_write: find in write mode; tombstone an existing record for the
key; if `free_bytes` can hold the rounded record, run the store block.
Returns the new page and `did_store` (1 = stored, 0 = not stored). -/
def mmc_write (p : Page) (hash_slot flags : Nat) (key val : List Nat)
    (now es : Nat) : Page × Nat :=
  let kvlen := ROUNDLEN (KV_SlotLen key.length val.length)
  match findSlot p hash_slot key 1 with
  | none => (p, 0)
  | some j =>
    let p1 := if 1 < p.slots.getD j 0 then deleteSlot p j else p
    if kvlen ≤ p1.free_bytes then
      (writeStore p1 j hash_slot flags key val now es, 1)
    else (p1, 0)

/-- mmc_delete: find in delete mode; miss returns 0, otherwise tombstone
the slot and return 1 together with the record's flags. -/
def mmc_delete (p : Page) (hash_slot : Nat) (key : List Nat) :
    Page × Nat × Option Nat :=
  match findSlot p hash_slot key 2 with
  | none => (p, 0, none)
  | some j =>
    let off := p.slots.getD j 0
    if off = 0 then (p, 0, none)
    else (deleteSlot p j, 1, (p.heap.lookup off).map Record.flags)

/-- _mmc_init_page for a single page: zeroed page, header with
`num_slots = free_slots = start_slots`, `old_slots = 0`,
`free_data = P_HEADERSIZE + start_slots*4`, `free_bytes` the rest. -/
def initPage (start_slots page_size : Nat) : Page :=
  { magic := MAGIC
    page_size := page_size
    num_slots := start_slots
    free_slots := start_slots
    old_slots := 0
    free_data := P_HEADERSIZE + start_slots * 4
    free_bytes := page_size - (P_HEADERSIZE + start_slots * 4)
    slots := List.replicate start_slots 0
    heap := [] }

/-- Header validation performed by `mmc_lock` after acquiring the lock
(mmap_cache.c lines 458-476): magic check, then the hard-coded reality
checks `p_num_slots < 89 || p_num_slots > c_page_size`,
`p_free_slots > p_num_slots`, `p_old_slots > p_free_slots`,
`p_free_data + p_free_bytes != c_page_size`. -/
def mmc_lock_check (p : Page) : Bool :=
  decide (p.magic = MAGIC) &&
  !(decide (p.num_slots < 89) || decide (p.page_size < p.num_slots)) &&
  decide (p.free_slots ≤ p.num_slots) &&
  decide (p.old_slots ≤ p.free_slots) &&
  decide (p.free_data + p.free_bytes = p.page_size)

/-- Modelled from the spec. Header validation as the specification
states it in sections 3 and 4.5: the same invariants but with the
lower bound `num_slots ≥ start_slots` instead of any larger constant.
Written only to be compared against `mmc_lock_check`. -/
def spec_lock_check (start_slots : Nat) (p : Page) : Bool :=
  decide (p.magic = MAGIC) &&
  decide (start_slots ≤ p.num_slots) &&
  decide (p.num_slots ≤ p.page_size) &&
  decide (p.free_slots ≤ p.num_slots) &&
  decide (p.old_slots ≤ p.free_slots) &&
  decide (p.free_data + p.free_bytes = p.page_size)

/-- Hash step of `mmc_hash`: `h = (h << 4) + (h >> 28) + b` in MU32
arithmetic. -/
def hashStep (h b : Nat) : Nat := ((h <<< 4) % 2 ^ 32 + h >>> 28 + b) % 2 ^ 32

/-- mmc_hash: fold `hashStep` over the key bytes starting from the
magic seed, then split into `(page_index, slot_hash)` by
`h % num_pages` and `h / num_pages`. -/
def mmc_hash (num_pages : Nat) (key : List Nat) : Nat × Nat :=
  let h := key.foldl hashStep MAGIC
  (h % num_pages, h / num_pages)

/-- Rotate-left-by-4 of a 32-bit value, as the spec words it:
`(h << 4) | (h >> 28)` with 32-bit wrap. -/
def rotl4 (h : Nat) : Nat := (h <<< 4) % 2 ^ 32 ||| h >>> 28

/-- Hash step as the spec words it: rotate-left-4 then add the byte,
with 32-bit wrap. -/
def specHashStep (h b : Nat) : Nat := (rotl4 h + b) % 2 ^ 32

/-- Full spec-worded hash over a key. -/
def specHash (key : List Nat) : Nat := key.foldl specHashStep MAGIC

/-- Partition step of `mmc_calc_expunge` over one slot: free slots are
skipped; mode 1 sends every used record to the out (expunge) side;
otherwise expired records (`expire_time ≠ 0 ∧ now ≥ expire_time`) go
out and the rest are keep-candidates, whose rounded sizes accumulate in
`used_data`.  The C code fills keep-candidates from the back of the
scratch array, so their list order is the reverse of slot order, which
`r :: ins` reproduces. -/
def partStep (heap : List (Nat × Record)) (mode now : Nat)
    (acc : List Record × List Record × Nat) (off : Nat) :
    List Record × List Record × Nat :=
  if off ≤ 1 then acc
  else
    match heap.lookup off with
    | none => acc
    | some r =>
      if mode = 1 then (acc.1 ++ [r], acc.2.1, acc.2.2)
      else if r.expire_time ≠ 0 ∧ now ≥ r.expire_time then
        (acc.1 ++ [r], acc.2.1, acc.2.2)
      else (acc.1, r :: acc.2.1, acc.2.2 + recSize r)

/-- Single walk over the slot table of `mmc_calc_expunge`: returns
(definitely-out records, keep-candidates, used_data). -/
def expungePartition (p : Page) (mode now : Nat) :
    List Record × List Record × Nat :=
  p.slots.foldl (partStep p.heap mode now) ([], [], 0)

/-- Insertion step of the LRU sort on keep-candidates.  The C code uses
`qsort` with the 0/1 comparator `last_access_cmp`, which leaves the
order of ties (and, per the C standard, the whole order) unspecified; a
deterministic stable sort by ascending `last_access` is one refinement
of it. -/
def insertByLA (r : Record) : List Record → List Record
  | [] => [r]
  | x :: xs => if r.last_access ≤ x.last_access then r :: x :: xs
               else x :: insertByLA r xs

/-- Stable insertion sort by ascending `last_access`. -/
def sortByLA : List Record → List Record
  | [] => []
  | x :: xs => insertByLA x (sortByLA xs)

/-- Mode-2 eviction loop of `mmc_calc_expunge`: while records remain
and `used_data ≥ data_thresh`, evict the least-recently-used record and
subtract its rounded size.  Returns (extra evicted, survivors). -/
def evictLoop (thresh : Nat) : List Record → Nat → List Record × List Record
  | [], _ => ([], [])
  | r :: rest, used =>
    if thresh ≤ used then
      let p := evictLoop thresh rest (used - recSize r)
      (r :: p.1, p.2)
    else ([], r :: rest)

/-- Result of `mmc_calc_expunge`: the new slot count `*new_num_slots`,
the records to expunge (the prefix of length `return value` of the
`to_expunge` array) and the surviving records (the rest of the array,
which `mmc_do_expunge` reinserts). -/
structure ExpungePlan where
  new_num_slots : Nat
  expunged : List Record
  survivors : List Record
deriving DecidableEq

/-- New-slot-count decision of `mmc_calc_expunge`: double and add one
when keep-candidates exceed 30% of `num_slots` and either the old heap
has room for the enlarged slot table or mode is 2.  The C compares
`(double)keep/num > 0.3`, which for 32-bit values is exactly
`10*keep > 3*num`. -/
def calcNewNumSlots (num keepCount pds used_data mode : Nat) : Nat :=
  if 10 * keepCount > 3 * num ∧ (pds - used_data > (num + 1) * 4 ∨ mode = 2)
  then num * 2 + 1 else num

/-- mmc_calc_expunge.  `none` models the mode-2 early return (line 790:
more than 30% truly-free slots and enough free bytes, nothing to do;
`*new_num_slots` is never written).  The mode-2 threshold
`(MU32)(0.6 * page_data_size)` equals `3 * page_data_size / 5` for the
32-bit sizes involved. -/
def mmc_calc_expunge (p : Page) (mode : Nat) (len : Int) (now : Nat) :
    Option ExpungePlan :=
  if mode = 2 ∧ 0 ≤ len ∧
     10 * (p.free_slots - p.old_slots) > 3 * p.num_slots ∧
     ROUNDLEN (KV_SlotLen len.toNat 0) ≤ p.free_bytes then
    none
  else
    let part := expungePartition p mode now
    let pds := p.page_size - p.num_slots * 4 - P_HEADERSIZE
    let nn := calcNewNumSlots p.num_slots part.2.1.length pds part.2.2 mode
    if mode = 0 ∨ mode = 1 then some ⟨nn, part.1, part.2.1⟩
    else
      let pds2 := p.page_size - nn * 4 - P_HEADERSIZE
      let ev := evictLoop (3 * pds2 / 5) (sortByLA part.2.1) part.2.2
      some ⟨nn, part.1 ++ ev.1, ev.2⟩

/-- Linear probe of `mmc_do_expunge` over the scratch slot table:
`while (*new_slot_ptr) { if (++slot >= new_num_slots) slot = 0; ... }`.
The C loop has no bound; with fuel `new_num_slots` the probe visits
every index once, so running out of fuel (`none`) models the loop
cycling forever on a table with no empty slot. -/
def probeEmpty (tbl : List Nat) (n : Nat) : Nat → Nat → Option Nat
  | _, 0 => none
  | idx, fuel + 1 =>
    if tbl.getD idx 0 = 0 then some idx
    else probeEmpty tbl n (if n ≤ idx + 1 then 0 else idx + 1) fuel

/-- Reinsertion loop of `mmc_do_expunge`: for each surviving record,
probe the scratch slot table from `slot_hash % new_num_slots`, store
the record contiguously in the scratch heap, and point the slot at
byte offset `new_offset + new_num_slots*4 + P_HEADERSIZE`.  State is
(slot table, heap, new_offset). -/
def insertAll (nn : Nat) :
    List Record → List Nat × List (Nat × Record) × Nat →
    Option (List Nat × List (Nat × Record) × Nat)
  | [], st => some st
  | r :: rest, (tbl, hp, off) =>
    match probeEmpty tbl nn (r.slot_hash % nn) nn with
    | none => none
    | some i =>
      insertAll nn rest
        (tbl.set i (off + nn * 4 + P_HEADERSIZE),
         (off + nn * 4 + P_HEADERSIZE, r) :: hp,
         off + recSize r)

/-- mmc_do_expunge: rebuild the slot table and heap in scratch space
from the surviving records, then write them back and recompute the
header counters (`free_slots = new_num_slots - survivors`,
`old_slots = 0`, `free_data = new_offset + new_num_slots*4 + 32`,
`free_bytes = page_data_size - new_offset`). -/
def mmc_do_expunge (p : Page) (nn : Nat) (survivors : List Record) :
    Option Page :=
  match insertAll nn survivors (List.replicate nn 0, [], 0) with
  | none => none
  | some (tbl, hp, newoff) =>
    some { p with num_slots := nn,
                  free_slots := nn - survivors.length,
                  old_slots := 0,
                  free_data := newoff + nn * 4 + P_HEADERSIZE,
                  free_bytes := (p.page_size - nn * 4 - P_HEADERSIZE) - newoff,
                  slots := tbl,
                  heap := hp }

/-- Count of free slots (`data_offset ∈ {0,1}`) in a slot table. -/
def countFree (slots : List Nat) : Nat := slots.countP (fun off => decide (off ≤ 1))

/-- Count of tombstones (`data_offset = 1`) in a slot table. -/
def countOld (slots : List Nat) : Nat := slots.countP (fun off => decide (off = 1))

/-- Header counters agree with the slot table, plus the structural
facts the page layout gives: the slot table has `num_slots` entries,
`free_data + free_bytes = page_size`, and `free_data` lies beyond the
tombstone sentinel values (on any initialized page
`free_data ≥ 32 + 4*num_slots ≥ 2`). -/
def Consistent (p : Page) : Prop :=
  p.num_slots = p.slots.length ∧
  p.free_slots = countFree p.slots ∧
  p.old_slots = countOld p.slots ∧
  p.free_data + p.free_bytes = p.page_size ∧
  2 ≤ p.free_data

/-- Universal §3/§8 header invariant:
`0 ≤ old_slots ≤ free_slots ≤ num_slots` and
`free_data + free_bytes = page_size`. -/
def HeaderInv (p : Page) : Prop :=
  p.old_slots ≤ p.free_slots ∧ p.free_slots ≤ p.num_slots ∧
  p.free_data + p.free_bytes = p.page_size

/-- Page of size 80 with 2 slots holding one record for key `[1]`
(28 bytes at offset 40) and only 12 free heap bytes. -/
def pageC2 : Page :=
  { magic := MAGIC, page_size := 80, num_slots := 2, free_slots := 1,
    old_slots := 0, free_data := 68, free_bytes := 12, slots := [40, 0],
    heap := [(40, { last_access := 50, expire_time := 0, slot_hash := 0,
                    flags := 3, key := [1], val := [2] })] }

/-- Empty 2-slot page with only 10 free heap bytes. -/
def pageC2w : Page :=
  { magic := MAGIC, page_size := 50, num_slots := 2, free_slots := 2,
    old_slots := 0, free_data := 40, free_bytes := 10, slots := [0, 0],
    heap := [] }

/-- Empty 2-slot page whose first slot is a tombstone. -/
def pageC9 : Page :=
  { magic := MAGIC, page_size := 200, num_slots := 2, free_slots := 2,
    old_slots := 1, free_data := 40, free_bytes := 160, slots := [1, 0],
    heap := [] }

/-- Record of rounded size 888 used to fill a page. -/
def bigRec : Record :=
  { last_access := 50, expire_time := 0, slot_hash := 88, flags := 0,
    key := [0], val := List.replicate 860 7 }

/-- Record of rounded size 28, hashed to slot `i`. -/
def smallRec (i : Nat) : Record :=
  { last_access := 50, expire_time := 0, slot_hash := i, flags := 0,
    key := [i], val := [i] }

/-- Page of size 4096 with all 89 slots used by unexpired records whose
rounded sizes total 3352 bytes, leaving fewer than `(89+1)*4` spare
heap bytes, so a mode-0 expunge keeps all 89 records and cannot double
the slot table. -/
def pageC7 : Page :=
  { magic := MAGIC, page_size := 4096, num_slots := 89, free_slots := 0,
    old_slots := 0, free_data := 3740, free_bytes := 356,
    slots := (List.range 88).map (fun i => 388 + 28 * i) ++ [2852],
    heap := ((List.range 88).map (fun i => (388 + 28 * i, smallRec i))) ++
            [(2852, bigRec)] }

/-- Record with `last_access = 10 + i` and a one-byte key, no value. -/
def rec8 (i : Nat) : Record :=
  { last_access := 10 + i, expire_time := 0, slot_hash := i, flags := 0,
    key := [i], val := [] }

/-- Page with 16 slots, 5 of them used, and 100 free heap bytes, so a
mode-2 expunge for a 200-byte record is not a no-op and doubles the
slot table. -/
def pageC8 : Page :=
  { magic := MAGIC, page_size := 1000, num_slots := 16, free_slots := 11,
    old_slots := 0, free_data := 900, free_bytes := 100,
    slots := [96, 124, 152, 180, 208] ++ List.replicate 11 0,
    heap := (List.range 5).map (fun i => (96 + 28 * i, rec8 i)) }

/-- Page holding one record for key `[9]` with `expire_time = 5`. -/
def pageC10 : Page :=
  { magic := MAGIC, page_size := 200, num_slots := 2, free_slots := 1,
    old_slots := 0, free_data := 68, free_bytes := 132, slots := [40, 0],
    heap := [(40, { last_access := 3, expire_time := 5, slot_hash := 0,
                    flags := 8, key := [9], val := [1, 2] })] }

/-- Consistent 2-slot page holding one unexpired record for key `[1]`
with plenty of free space. -/
def pageC5 : Page :=
  { magic := MAGIC, page_size := 200, num_slots := 2, free_slots := 1,
    old_slots := 0, free_data := 68, free_bytes := 132, slots := [40, 0],
    heap := [(40, { last_access := 50, expire_time := 0, slot_hash := 0,
                    flags := 3, key := [1], val := [2] })] }

/-- Probe indices stay below the slot-table length when the wrap point
equals the length. -/
theorem findSlotAux_lt (slots : List Nat) (heap : List (Nat × Record))
    (key : List Nat) (mode : Nat) :
    ∀ fuel idx j, idx < slots.length →
    findSlotAux slots heap key mode slots.length idx fuel = some j →
    j < slots.length := by
  intro fuel
  induction fuel with
  | zero => intro idx j _ h; simp [findSlotAux] at h
  | succ fuel ih =>
    intro idx j hidx h
    simp only [findSlotAux] at h
    split at h
    · injection h with h2; omega
    · split at h
      · split at h
        · injection h with h2; omega
        · exact ih _ j (by split <;> omega) h
      · split at h
        · injection h with h2; omega
        · exact ih _ j (by split <;> omega) h

/-- Characterization of the slot a successful probe returns: it is
empty, a tombstone found in write mode, or a used slot whose record's
key matches. -/
theorem findSlotAux_spec (slots : List Nat) (heap : List (Nat × Record))
    (key : List Nat) (mode n : Nat) :
    ∀ fuel idx j, findSlotAux slots heap key mode n idx fuel = some j →
    slots.getD j 0 = 0 ∨ (mode = 1 ∧ slots.getD j 0 = 1) ∨
      (1 < slots.getD j 0 ∧ keyMatches heap (slots.getD j 0) key = true) := by
  intro fuel
  induction fuel with
  | zero => intro idx j h; simp [findSlotAux] at h
  | succ fuel ih =>
    intro idx j h
    simp only [findSlotAux] at h
    split at h
    · rename_i h0
      injection h with h2; subst h2; left; exact h0
    · rename_i h0
      split at h
      · rename_i h1
        split at h
        · rename_i hm
          injection h with h2; subst h2; right; left; exact ⟨hm, h1⟩
        · exact ih _ j h
      · rename_i h1
        split at h
        · rename_i hk
          injection h with h2; subst h2; right; right
          refine ⟨?_, hk⟩
          omega
        · exact ih _ j h

/-- Lookup in a heap extended with a fresh record, at a different offset,
is unchanged. -/
theorem lookup_cons_ne (heap : List (Nat × Record)) (d off : Nat) (r : Record)
    (hod : off ≠ d) : ((d, r) :: heap).lookup off = heap.lookup off := by
  have hbe : (off == d) = false := beq_eq_false_iff_ne.mpr hod
  simp [List.lookup, hbe]

/-- Lookup at the freshly stored offset returns the fresh record. -/
theorem lookup_cons_self (heap : List (Nat × Record)) (d : Nat) (r : Record) :
    ((d, r) :: heap).lookup d = some r := by
  simp [List.lookup]

/-- Value of a slot table at a freshly set index. -/
theorem getD_set_self (slots : List Nat) (j d : Nat) (hj : j < slots.length) :
    (slots.set j d).getD j 0 = d := by
  rw [List.getD_eq_getElem?_getD, List.getElem?_set_self hj]
  rfl

/-- Value of a slot table at an index other than the freshly set one. -/
theorem getD_set_ne (slots : List Nat) (i j d : Nat) (hij : j ≠ i) :
    (slots.set j d).getD i 0 = slots.getD i 0 := by
  rw [List.getD_eq_getElem?_getD, List.getElem?_set_ne hij,
    ← List.getD_eq_getElem?_getD]

/-- Central probe lemma: if a write-mode probe returned slot `j`, then
after slot `j` is pointed at a fresh record `r` for the same key stored
at heap offset `d > 1`, a probe in any mode from the same start returns
a slot that is used and holds exactly `r`. -/
theorem findSlotAux_store (slots : List Nat) (heap : List (Nat × Record))
    (key : List Nat) (d : Nat) (r : Record) (j m : Nat)
    (hd : 1 < d) (hr : r.key = key) :
    ∀ fuel idx, idx < slots.length →
    findSlotAux slots heap key 1 slots.length idx fuel = some j →
    ∃ j2, findSlotAux (slots.set j d) ((d, r) :: heap) key m
            (slots.set j d).length idx fuel = some j2 ∧
      (slots.set j d).getD j2 0 ≠ 0 ∧
      ((d, r) :: heap).lookup ((slots.set j d).getD j2 0) = some r := by
  have hmatch : keyMatches ((d, r) :: heap) d key = true := by
    simp [keyMatches, lookup_cons_self, hr]
  intro fuel
  induction fuel with
  | zero => intro idx _ h; simp [findSlotAux] at h
  | succ fuel ih =>
    intro idx hidx h
    have hlen : (slots.set j d).length = slots.length := List.length_set ..
    have hjlt : j < slots.length :=
      findSlotAux_lt slots heap key 1 (fuel + 1) idx j hidx h
    simp only [findSlotAux] at h
    by_cases hij : idx = j
    · -- the new probe stops immediately at the stored slot
      subst hij
      refine ⟨idx, ?_, ?_, ?_⟩
      · simp only [findSlotAux]
        rw [hlen, getD_set_self slots idx d hidx]
        simp [show ¬(d = 0) by omega, show ¬(d = 1) by omega, hmatch]
      · rw [getD_set_self slots idx d hidx]; omega
      · rw [getD_set_self slots idx d hidx]; exact lookup_cons_self ..
    · -- the old probe did not stop here, or stopped at j = idx (excluded)
      have hgd : (slots.set j d).getD idx 0 = slots.getD idx 0 :=
        getD_set_ne slots idx j d (by omega)
      split at h
      · injection h with h2; omega
      · rename_i h0
        split at h
        · rename_i h1
          split at h
          · injection h with h2; omega
          · rename_i hc; exact absurd trivial hc
        · rename_i h1
          split at h
          · injection h with h2; omega
          · rename_i hk
            -- old probe recursed; the new probe either stops here on the
            -- fresh offset or recurses in step
            by_cases hod : slots.getD idx 0 = d
            · refine ⟨idx, ?_, ?_, ?_⟩
              · simp only [findSlotAux]
                rw [hlen, hgd, hod]
                simp [show ¬(d = 0) by omega, show ¬(d = 1) by omega, hmatch]
              · rw [hgd, hod]; omega
              · rw [hgd, hod]; exact lookup_cons_self ..
            · have hnext : (if idx + 1 = slots.length then 0 else idx + 1) <
                  slots.length := by split <;> omega
              obtain ⟨j2, hfind2, hne2, hlook2⟩ := ih _ hnext h
              refine ⟨j2, ?_, hne2, hlook2⟩
              simp only [findSlotAux]
              rw [hlen, hgd]
              have hkm2 : keyMatches ((d, r) :: heap) (slots.getD idx 0) key =
                  keyMatches heap (slots.getD idx 0) key := by
                unfold keyMatches
                rw [lookup_cons_ne heap d (slots.getD idx 0) r hod]
              rw [if_neg h0, if_neg h1, hkm2, if_neg hk]
              rw [hlen] at hfind2
              exact hfind2

/-- A successful probe forces a positive slot count (fuel zero returns
none). -/
theorem findSlot_pos (p : Page) (hs : Nat) (key : List Nat) (mode j : Nat)
    (hfind : findSlot p hs key mode = some j) : 0 < p.num_slots := by
  rcases Nat.eq_zero_or_pos p.num_slots with h0 | h
  · rw [findSlot, h0] at hfind
    simp [findSlotAux] at hfind
  · exact h

/-- Anatomy of a successful `mmc_write`: the write-mode probe found a
slot `j`, the rounded record fit in `free_bytes`, and the result is the
store block applied either directly (empty or tombstone slot) or after
tombstoning the existing record for the key. -/
theorem mmc_write_success (p p' : Page) (hs f now es : Nat) (k v : List Nat)
    (hw : mmc_write p hs f k v now es = (p', 1)) :
    ∃ j, findSlot p hs k 1 = some j ∧
      ROUNDLEN (KV_SlotLen k.length v.length) ≤ p.free_bytes ∧
      ((p.slots.getD j 0 ≤ 1 ∧ p' = writeStore p j hs f k v now es) ∨
       (1 < p.slots.getD j 0 ∧
        p' = writeStore (deleteSlot p j) j hs f k v now es)) := by
  rcases hfind : findSlot p hs k 1 with _ | j
  · rw [mmc_write] at hw
    rw [hfind] at hw
    simp at hw
  · refine ⟨j, rfl, ?_⟩
    rw [mmc_write] at hw
    rw [hfind] at hw
    simp only at hw
    by_cases hoff : 1 < p.slots.getD j 0
    · rw [if_pos hoff] at hw
      split at hw
      · rename_i hfb
        refine ⟨by simpa [deleteSlot] using hfb, Or.inr ⟨hoff, ?_⟩⟩
        injection hw with hw1 _
        exact hw1.symm
      · injection hw with _ hw2; exact absurd hw2 (by omega)
    · rw [if_neg hoff] at hw
      split at hw
      · rename_i hfb
        refine ⟨hfb, Or.inl ⟨by omega, ?_⟩⟩
        injection hw with hw1 _
        exact hw1.symm
      · injection hw with _ hw2; exact absurd hw2 (by omega)

/-- Reduction of `mmc_read` on a hit. -/
theorem mmc_read_hit (p : Page) (hs now : Nat) (k : List Nat) (j : Nat)
    (r : Record)
    (hfind : findSlot p hs k 0 = some j)
    (hne : ¬(p.slots.getD j 0 = 0))
    (hlook : p.heap.lookup (p.slots.getD j 0) = some r)
    (hexp : ¬(r.expire_time ≠ 0 ∧ now > r.expire_time)) :
    mmc_read p hs k now =
      (some (r.val, r.flags),
       { p with heap := setLastAccess p.heap (p.slots.getD j 0) now }) := by
  rw [mmc_read]
  rw [hfind]
  simp only
  rw [if_neg hne, hlook]
  simp only
  rw [if_neg hexp]

/-- Round-trip core: a successful `mmc_write` is immediately visible to
`mmc_read` with the same hash slot and key; the read returns the stored
value and flags and leaves `free_slots` untouched. -/
theorem read_after_write (p p' : Page) (hs f now es : Nat) (k v : List Nat)
    (hlen : p.num_slots = p.slots.length)
    (hfd : 2 ≤ p.free_data)
    (hw : mmc_write p hs f k v now es = (p', 1)) :
    (mmc_read p' hs k now).1 = some (v, f) ∧
    (mmc_read p' hs k now).2.free_slots = p'.free_slots := by
  obtain ⟨j, hfind, hkv, hcase⟩ := mmc_write_success p p' hs f now es k v hw
  have hpos : 0 < p.num_slots := findSlot_pos p hs k 1 j hfind
  have hlpos : 0 < p.slots.length := by omega
  have hidx : hs % p.slots.length < p.slots.length := Nat.mod_lt _ hlpos
  have hslots : p'.slots = p.slots.set j p.free_data := by
    rcases hcase with ⟨_, hp'⟩ | ⟨_, hp'⟩ <;> subst hp' <;>
      simp [writeStore, deleteSlot, List.set_set]
  have hheap : p'.heap = (p.free_data, writeRecord hs f k v now es) :: p.heap := by
    rcases hcase with ⟨_, hp'⟩ | ⟨_, hp'⟩ <;> subst hp' <;>
      simp [writeStore, deleteSlot]
  have hnum : p'.num_slots = p.num_slots := by
    rcases hcase with ⟨_, hp'⟩ | ⟨_, hp'⟩ <;> subst hp' <;>
      simp [writeStore, deleteSlot]
  simp only [findSlot] at hfind
  rw [hlen] at hfind
  obtain ⟨j2, hfind2, hne2, hlook2⟩ :=
    findSlotAux_store p.slots p.heap k p.free_data
      (writeRecord hs f k v now es) j 0 (by omega) rfl
      p.slots.length (hs % p.slots.length) hidx hfind
  have hsetlen : (p.slots.set j p.free_data).length = p.slots.length :=
    List.length_set ..
  have hfindp' : findSlot p' hs k 0 = some j2 := by
    simp only [findSlot]
    rw [hslots, hheap, hnum, hlen]
    rw [hsetlen] at hfind2
    exact hfind2
  have hne' : ¬(p'.slots.getD j2 0 = 0) := by rw [hslots]; exact hne2
  have hlook' : p'.heap.lookup (p'.slots.getD j2 0) =
      some (writeRecord hs f k v now es) := by
    rw [hslots, hheap]; exact hlook2
  have hexp : ¬((writeRecord hs f k v now es).expire_time ≠ 0 ∧
      now > (writeRecord hs f k v now es).expire_time) := by
    by_cases hes : es = 0
    · simp [writeRecord, hes]
    · simp only [writeRecord, if_neg hes]
      intro h
      omega
  have hread := mmc_read_hit p' hs now k j2 (writeRecord hs f k v now es)
    hfindp' hne' hlook' hexp
  rw [hread]
  exact ⟨rfl, rfl⟩

/-- Claim C4: for every key K, value V and flags F whose rounded record
size fits in the page heap, on a locked page a successful
mmc_write(K, V, F) followed immediately (same second) by mmc_read(K)
returns a hit with value V and flags F, and the read leaves
`free_slots` unchanged. -/
theorem write_then_read_roundtrip (p p' : Page) (hs f now es : Nat)
    (k v : List Nat)
    (hsize : ROUNDLEN (KV_SlotLen k.length v.length) ≤
      p.page_size - P_HEADERSIZE - p.num_slots * 4)
    (hlen : p.num_slots = p.slots.length)
    (hfd : 2 ≤ p.free_data)
    (hw : mmc_write p hs f k v now es = (p', 1)) :
    (mmc_read p' hs k now).1 = some (v, f) ∧
    (mmc_read p' hs k now).2.free_slots = p'.free_slots :=
  read_after_write p p' hs f now es k v hlen hfd hw

/-- Witness for C4 on a fresh 16-slot page of size 1024. -/
theorem write_then_read_roundtrip_witness :
    (mmc_read (mmc_write (initPage 16 1024) 5 7 [97, 98, 99] [88] 100 0).1
        5 [97, 98, 99] 100).1 = some ([88], 7) ∧
    (mmc_read (mmc_write (initPage 16 1024) 5 7 [97, 98, 99] [88] 100 0).1
        5 [97, 98, 99] 100).2.free_slots =
      (mmc_write (initPage 16 1024) 5 7 [97, 98, 99] [88] 100 0).1.free_slots :=
  write_then_read_roundtrip (initPage 16 1024)
    (mmc_write (initPage 16 1024) 5 7 [97, 98, 99] [88] 100 0).1
    5 7 100 0 [97, 98, 99] [88]
    (by decide) (by decide) (by decide) (by decide)

/-- Slot values of a zeroed slot table. -/
theorem getD_replicate_zero (S i : Nat) :
    (List.replicate S (0 : Nat)).getD i 0 = 0 := by
  rw [List.getD_eq_getElem?_getD, List.getElem?_replicate]
  split <;> rfl

/-- On a freshly initialized page every probe stops at its very first
slot, `hash_slot % start_slots`. -/
theorem findSlot_init (S ps hs mode : Nat) (key : List Nat) (hS : 0 < S) :
    findSlot (initPage S ps) hs key mode = some (hs % S) := by
  obtain ⟨T, rfl⟩ : ∃ T, S = T + 1 := ⟨S - 1, by omega⟩
  simp only [findSlot, initPage]
  rw [findSlotAux]
  simp [getD_replicate_zero]

theorem writeStore_slots (p : Page) (j hs f : Nat) (k v : List Nat) (now es : Nat) :
    (writeStore p j hs f k v now es).slots = p.slots.set j p.free_data := rfl

theorem writeStore_heap (p : Page) (j hs f : Nat) (k v : List Nat) (now es : Nat) :
    (writeStore p j hs f k v now es).heap =
      (p.free_data, writeRecord hs f k v now es) :: p.heap := rfl

theorem writeStore_num_slots (p : Page) (j hs f : Nat) (k v : List Nat) (now es : Nat) :
    (writeStore p j hs f k v now es).num_slots = p.num_slots := rfl

theorem writeStore_free_slots (p : Page) (j hs f : Nat) (k v : List Nat) (now es : Nat) :
    (writeStore p j hs f k v now es).free_slots = p.free_slots - 1 := rfl

theorem writeStore_old_slots (p : Page) (j hs f : Nat) (k v : List Nat) (now es : Nat) :
    (writeStore p j hs f k v now es).old_slots =
      if p.slots.getD j 0 = 1 then p.old_slots - 1 else p.old_slots := rfl

theorem writeStore_free_data (p : Page) (j hs f : Nat) (k v : List Nat) (now es : Nat) :
    (writeStore p j hs f k v now es).free_data =
      p.free_data + ROUNDLEN (KV_SlotLen k.length v.length) := rfl

theorem writeStore_free_bytes (p : Page) (j hs f : Nat) (k v : List Nat) (now es : Nat) :
    (writeStore p j hs f k v now es).free_bytes =
      p.free_bytes - ROUNDLEN (KV_SlotLen k.length v.length) := rfl

theorem writeStore_page_size (p : Page) (j hs f : Nat) (k v : List Nat) (now es : Nat) :
    (writeStore p j hs f k v now es).page_size = p.page_size := rfl

theorem deleteSlot_fields (p : Page) (j : Nat) :
    (deleteSlot p j).slots = p.slots.set j 1 ∧
    (deleteSlot p j).heap = p.heap ∧
    (deleteSlot p j).num_slots = p.num_slots ∧
    (deleteSlot p j).free_slots = p.free_slots + 1 ∧
    (deleteSlot p j).old_slots = p.old_slots + 1 ∧
    (deleteSlot p j).free_data = p.free_data ∧
    (deleteSlot p j).free_bytes = p.free_bytes ∧
    (deleteSlot p j).page_size = p.page_size :=
  ⟨rfl, rfl, rfl, rfl, rfl, rfl, rfl, rfl⟩

/-- Claim C1 (amended): on a fresh page, two consecutive successful
writes of the same key leave at most one record for the key reachable
via find (a read returns the second value), leave
`free_slots = start_slots - 1`, and leave `old_slots` unchanged at `0`
(not `1`): the tombstone created when the first record is replaced is
immediately reused by the store block, which decrements `old_slots`
back. -/
theorem overwrite_same_key_amended (S ps hs f1 f2 now1 now2 es1 es2 : Nat)
    (k v1 v2 : List Nat) (p1 p2 : Page)
    (hw1 : mmc_write (initPage S ps) hs f1 k v1 now1 es1 = (p1, 1))
    (hw2 : mmc_write p1 hs f2 k v2 now2 es2 = (p2, 1)) :
    (mmc_read p2 hs k now2).1 = some (v2, f2) ∧
    p2.free_slots = S - 1 ∧
    p2.old_slots = 0 := by
  obtain ⟨j1, hfind1, hkv1, hcase1⟩ := mmc_write_success _ _ _ _ _ _ _ _ hw1
  have hpos : 0 < S := by
    have h := findSlot_pos _ _ _ _ _ hfind1
    simpa [initPage] using h
  have hj1 : j1 = hs % S := by
    rw [findSlot_init S ps hs 1 k hpos] at hfind1
    injection hfind1 with h
    omega
  subst hj1
  have hoff1 : (initPage S ps).slots.getD (hs % S) 0 = 0 := by
    simp [initPage, getD_replicate_zero]
  have hp1 : p1 = writeStore (initPage S ps) (hs % S) hs f1 k v1 now1 es1 := by
    rcases hcase1 with ⟨_, h⟩ | ⟨hgt, _⟩
    · exact h
    · rw [hoff1] at hgt; omega
  subst hp1
  have hjlt : hs % S < S := Nat.mod_lt _ hpos
  have hlenrep : (List.replicate S (0 : Nat)).length = S := List.length_replicate ..
  have hfd0 : (initPage S ps).free_data = P_HEADERSIZE + S * 4 := rfl
  have hd0 : 1 < (initPage S ps).free_data := by
    rw [hfd0]; simp only [P_HEADERSIZE]; omega
  -- the write-mode probe on the once-written page stops at the record's
  -- slot at its very first step
  have hfindp1 :
      findSlot (writeStore (initPage S ps) (hs % S) hs f1 k v1 now1 es1)
        hs k 1 = some (hs % S) := by
    obtain ⟨T, hT⟩ : ∃ T, S = T + 1 := ⟨S - 1, by omega⟩
    simp only [findSlot, writeStore_num_slots, writeStore_slots,
      writeStore_heap]
    have hnum : (initPage S ps).num_slots = S := rfl
    rw [hnum]
    rw [hT, findSlotAux]
    rw [← hT]
    have hget : ((initPage S ps).slots.set (hs % S)
        (initPage S ps).free_data).getD (hs % S) 0 =
        (initPage S ps).free_data := by
      apply getD_set_self
      simpa [initPage] using hjlt
    rw [hget]
    rw [if_neg (by omega), if_neg (by omega)]
    have hkm : keyMatches
        (((initPage S ps).free_data, writeRecord hs f1 k v1 now1 es1)
          :: (initPage S ps).heap)
        (initPage S ps).free_data k = true := by
      simp [keyMatches, lookup_cons_self, writeRecord]
    rw [if_pos hkm]
  obtain ⟨j2, hfind2, hkv2, hcase2⟩ := mmc_write_success _ _ _ _ _ _ _ _ hw2
  have hj2 : j2 = hs % S := by
    rw [hfindp1] at hfind2
    injection hfind2 with h
    omega
  subst hj2
  have hoff2 : (writeStore (initPage S ps) (hs % S) hs f1 k v1 now1
      es1).slots.getD (hs % S) 0 = (initPage S ps).free_data := by
    rw [writeStore_slots]
    apply getD_set_self
    simpa [initPage] using hjlt
  have hp2 : p2 = writeStore
      (deleteSlot (writeStore (initPage S ps) (hs % S) hs f1 k v1 now1 es1)
        (hs % S))
      (hs % S) hs f2 k v2 now2 es2 := by
    rcases hcase2 with ⟨hle, _⟩ | ⟨_, h⟩
    · rw [hoff2] at hle; omega
    · exact h
  refine ⟨?_, ?_, ?_⟩
  · have hlen1 : (writeStore (initPage S ps) (hs % S) hs f1 k v1 now1
        es1).num_slots =
        (writeStore (initPage S ps) (hs % S) hs f1 k v1 now1 es1).slots.length := by
      rw [writeStore_num_slots, writeStore_slots]
      simp [initPage]
    have hfd1 : 2 ≤ (writeStore (initPage S ps) (hs % S) hs f1 k v1 now1
        es1).free_data := by
      rw [writeStore_free_data, hfd0]
      simp only [P_HEADERSIZE]
      omega
    exact (read_after_write _ p2 hs f2 now2 es2 k v2 hlen1 hfd1 hw2).1
  · subst hp2
    rw [writeStore_free_slots, (deleteSlot_fields _ _).2.2.2.1,
      writeStore_free_slots]
    have hfs : (initPage S ps).free_slots = S := rfl
    omega
  · subst hp2
    rw [writeStore_old_slots]
    have hgd : (deleteSlot (writeStore (initPage S ps) (hs % S) hs f1 k v1
        now1 es1) (hs % S)).slots.getD (hs % S) 0 = 1 := by
      rw [(deleteSlot_fields _ _).1, writeStore_slots]
      apply getD_set_self
      simpa [initPage] using hjlt
    rw [if_pos hgd, (deleteSlot_fields _ _).2.2.2.2.1, writeStore_old_slots,
      if_neg (by rw [hoff1]; omega)]
    have hos : (initPage S ps).old_slots = 0 := rfl
    omega

/-- Claim C1 counterexample: on a fresh 16-slot page, write(abc, X)
then write(abc, YY) both store, yet `old_slots` ends at `0`, not at
`old_slots + 1 = 1` as the claim states: the second write tombstones
the first record's slot and immediately reuses it, decrementing
`old_slots` back. -/
theorem overwrite_old_slots_counterexample :
    (mmc_write (initPage 16 1024) 5 7 [97, 98, 99] [88] 100 0).2 = 1 ∧
    (mmc_write (mmc_write (initPage 16 1024) 5 7 [97, 98, 99] [88] 100 0).1
        5 9 [97, 98, 99] [89, 89] 100 0).2 = 1 ∧
    (initPage 16 1024).old_slots = 0 ∧
    ¬((mmc_write (mmc_write (initPage 16 1024) 5 7 [97, 98, 99] [88] 100 0).1
        5 9 [97, 98, 99] [89, 89] 100 0).1.old_slots =
      (initPage 16 1024).old_slots + 1) := by
  decide

/-- Witness for the amended C1 on the concrete overwrite scenario of
spec section 8. -/
theorem overwrite_same_key_amended_witness :
    (mmc_read (mmc_write (mmc_write (initPage 16 1024) 5 7 [97, 98, 99] [88]
        100 0).1 5 9 [97, 98, 99] [89, 89] 100 0).1 5 [97, 98, 99] 100).1 =
      some ([89, 89], 9) ∧
    (mmc_write (mmc_write (initPage 16 1024) 5 7 [97, 98, 99] [88] 100 0).1
        5 9 [97, 98, 99] [89, 89] 100 0).1.free_slots = 16 - 1 ∧
    (mmc_write (mmc_write (initPage 16 1024) 5 7 [97, 98, 99] [88] 100 0).1
        5 9 [97, 98, 99] [89, 89] 100 0).1.old_slots = 0 :=
  overwrite_same_key_amended 16 1024 5 7 9 100 100 0 0
    [97, 98, 99] [88] [89, 89]
    (mmc_write (initPage 16 1024) 5 7 [97, 98, 99] [88] 100 0).1
    (mmc_write (mmc_write (initPage 16 1024) 5 7 [97, 98, 99] [88] 100 0).1
      5 9 [97, 98, 99] [89, 89] 100 0).1
    (by decide) (by decide)

/-- Claim C2 (amended): a write whose rounded record size exceeds
`free_bytes` returns not-stored, and the page is unchanged provided the
write-mode probe does not land on an existing record for the key (in
particular whenever the key is absent).  When the key is already
present, the existing record is tombstoned before the space check, so
the page is mutated even though the write returns not-stored. -/
theorem write_nospace_amended (p : Page) (hs f now es : Nat) (k v : List Nat)
    (hfb : p.free_bytes < ROUNDLEN (KV_SlotLen k.length v.length))
    (hnp : findSlot p hs k 1 = none ∨
      ∃ j, findSlot p hs k 1 = some j ∧ p.slots.getD j 0 ≤ 1) :
    mmc_write p hs f k v now es = (p, 0) := by
  rcases hnp with hnone | ⟨j, hfind, hle⟩
  · rw [mmc_write]
    rw [hnone]
  · rw [mmc_write]
    rw [hfind]
    simp only
    rw [if_neg (show ¬(1 < p.slots.getD j 0) by omega)]
    rw [if_neg (show ¬(ROUNDLEN (KV_SlotLen k.length v.length) ≤
      p.free_bytes) by omega)]

/-- Claim C2 counterexample: on `pageC2` the key `[1]` already exists
and the page lacks room for its new 28-byte record; the write returns
not-stored but the page is mutated (the record's slot is tombstoned and
`free_slots`, `old_slots` are bumped). -/
theorem write_nospace_mutates_counterexample :
    pageC2.free_bytes < ROUNDLEN (KV_SlotLen 1 2) ∧
    (mmc_write pageC2 0 9 [1] [2, 3] 50 0).2 = 0 ∧
    ¬((mmc_write pageC2 0 9 [1] [2, 3] 50 0).1 = pageC2) := by
  decide

/-- Witness for the amended C2: absent key, insufficient space, page
returned verbatim. -/
theorem write_nospace_amended_witness :
    mmc_write pageC2w 0 1 [5] [6, 7] 9 0 = (pageC2w, 0) :=
  write_nospace_amended pageC2w 0 1 9 0 [5] [6, 7] (by decide)
    (Or.inr ⟨0, by decide, by decide⟩)

/-- Claim C3 (code bug in the source): `mmc_lock` validates the header
with the hard-coded bound `p_num_slots < 89` (line 469) instead of the
configured `start_slots`, so a freshly initialized page of a cache with
`start_slots = 10` (a value `mmc_init` itself asserts to be legal, line
237) fails to lock, while the section-3 validation the spec describes
accepts it.  With `start_slots = 89` (the default) the code's check
passes. -/
theorem lock_rejects_small_start_slots :
    mmc_lock_check (initPage 10 1024) = false ∧
    spec_lock_check 10 (initPage 10 1024) = true ∧
    mmc_lock_check (initPage 89 1024) = true := by
  decide

/-- After a successful write, a probe in any mode from the same hash
slot lands on a used slot holding exactly the record just stored. -/
theorem findSlot_after_write (p p' : Page) (hs f now es m : Nat)
    (k v : List Nat)
    (hlen : p.num_slots = p.slots.length)
    (hfd : 2 ≤ p.free_data)
    (hw : mmc_write p hs f k v now es = (p', 1)) :
    ∃ j2, findSlot p' hs k m = some j2 ∧
      ¬(p'.slots.getD j2 0 = 0) ∧
      p'.heap.lookup (p'.slots.getD j2 0) =
        some (writeRecord hs f k v now es) := by
  obtain ⟨j, hfind, hkv, hcase⟩ := mmc_write_success p p' hs f now es k v hw
  have hpos : 0 < p.num_slots := findSlot_pos p hs k 1 j hfind
  have hlpos : 0 < p.slots.length := by omega
  have hidx : hs % p.slots.length < p.slots.length := Nat.mod_lt _ hlpos
  have hslots : p'.slots = p.slots.set j p.free_data := by
    rcases hcase with ⟨_, hp'⟩ | ⟨_, hp'⟩ <;> subst hp' <;>
      simp [writeStore, deleteSlot, List.set_set]
  have hheap : p'.heap = (p.free_data, writeRecord hs f k v now es) :: p.heap := by
    rcases hcase with ⟨_, hp'⟩ | ⟨_, hp'⟩ <;> subst hp' <;>
      simp [writeStore, deleteSlot]
  have hnum : p'.num_slots = p.num_slots := by
    rcases hcase with ⟨_, hp'⟩ | ⟨_, hp'⟩ <;> subst hp' <;>
      simp [writeStore, deleteSlot]
  simp only [findSlot] at hfind
  rw [hlen] at hfind
  obtain ⟨j2, hfind2, hne2, hlook2⟩ :=
    findSlotAux_store p.slots p.heap k p.free_data
      (writeRecord hs f k v now es) j m (by omega) rfl
      p.slots.length (hs % p.slots.length) hidx hfind
  have hsetlen : (p.slots.set j p.free_data).length = p.slots.length :=
    List.length_set ..
  refine ⟨j2, ?_, ?_, ?_⟩
  · simp only [findSlot]
    rw [hslots, hheap, hnum, hlen]
    rw [hsetlen] at hfind2
    exact hfind2
  · rw [hslots]; exact hne2
  · rw [hslots, hheap]; exact hlook2

/-- Reduction of `mmc_delete` on a hit. -/
theorem mmc_delete_hit (p : Page) (hs : Nat) (k : List Nat) (j2 : Nat)
    (hfind : findSlot p hs k 2 = some j2)
    (hne : ¬(p.slots.getD j2 0 = 0)) :
    mmc_delete p hs k =
      (deleteSlot p j2, 1,
       (p.heap.lookup (p.slots.getD j2 0)).map Record.flags) := by
  rw [mmc_delete]
  rw [hfind]
  simp only
  rw [if_neg hne]

/-- Claim C9 (amended): when the write-mode probe lands on a never-used
slot (the key is not already stored and no tombstone precedes it), a
successful write followed by a delete of the same key returns 1,
restores `free_slots` to its pre-write value, and leaves `old_slots` at
its pre-write value plus one.  When the write reuses a tombstone the
final `old_slots` instead equals its pre-write value, so the claim's
"old_slots differs" does not hold for every page state. -/
theorem write_delete_amended (p p' : Page) (hs f now es j : Nat)
    (k v : List Nat)
    (hlen : p.num_slots = p.slots.length)
    (hfd : 2 ≤ p.free_data)
    (hfree : 1 ≤ p.free_slots)
    (hfind : findSlot p hs k 1 = some j)
    (hoff : p.slots.getD j 0 = 0)
    (hw : mmc_write p hs f k v now es = (p', 1)) :
    (mmc_delete p' hs k).2.1 = 1 ∧
    (mmc_delete p' hs k).1.free_slots = p.free_slots ∧
    (mmc_delete p' hs k).1.old_slots = p.old_slots + 1 := by
  obtain ⟨j', hfind', hkv, hcase⟩ := mmc_write_success p p' hs f now es k v hw
  have hj : j' = j := by
    rw [hfind] at hfind'
    injection hfind' with h
    omega
  subst hj
  have hp'2 : p' = writeStore p j' hs f k v now es := by
    rcases hcase with ⟨_, h⟩ | ⟨hgt, _⟩
    · exact h
    · rw [hoff] at hgt; omega
  obtain ⟨j2, hf2, hne2, hlook2⟩ :=
    findSlot_after_write p p' hs f now es 2 k v hlen hfd hw
  rw [mmc_delete_hit p' hs k j2 hf2 hne2]
  refine ⟨rfl, ?_, ?_⟩
  · show (deleteSlot p' j2).free_slots = p.free_slots
    rw [(deleteSlot_fields _ _).2.2.2.1, hp'2, writeStore_free_slots]
    omega
  · show (deleteSlot p' j2).old_slots = p.old_slots + 1
    rw [(deleteSlot_fields _ _).2.2.2.2.1, hp'2, writeStore_old_slots,
      if_neg (by rw [hoff]; omega)]

/-- Claim C9 counterexample: on `pageC9` the write-mode probe reuses
the tombstone in slot 0, so after a successful write and a successful
delete (both return 1) `old_slots` equals its pre-write value `1` —
the delete does not leave `old_slots` different from its pre-write
value.  `free_slots` is restored as claimed. -/
theorem write_delete_old_slots_counterexample :
    (mmc_write pageC9 0 4 [5] [6] 70 0).2 = 1 ∧
    (mmc_delete (mmc_write pageC9 0 4 [5] [6] 70 0).1 0 [5]).2.1 = 1 ∧
    (mmc_delete (mmc_write pageC9 0 4 [5] [6] 70 0).1 0 [5]).1.free_slots =
      pageC9.free_slots ∧
    ¬((mmc_delete (mmc_write pageC9 0 4 [5] [6] 70 0).1 0 [5]).1.old_slots ≠
      pageC9.old_slots) := by
  decide

/-- Witness for the amended C9 on a fresh page (never-used slot). -/
theorem write_delete_amended_witness :
    (mmc_delete (mmc_write (initPage 16 1024) 5 7 [97, 98, 99] [88] 100 0).1
        5 [97, 98, 99]).2.1 = 1 ∧
    (mmc_delete (mmc_write (initPage 16 1024) 5 7 [97, 98, 99] [88] 100 0).1
        5 [97, 98, 99]).1.free_slots = (initPage 16 1024).free_slots ∧
    (mmc_delete (mmc_write (initPage 16 1024) 5 7 [97, 98, 99] [88] 100 0).1
        5 [97, 98, 99]).1.old_slots = (initPage 16 1024).old_slots + 1 :=
  write_delete_amended (initPage 16 1024)
    (mmc_write (initPage 16 1024) 5 7 [97, 98, 99] [88] 100 0).1
    5 7 100 0 5 [97, 98, 99] [88]
    (by decide) (by decide) (by decide) (by decide) (by decide) (by decide)

/-- Counting effect of setting one slot. -/
theorem countP_set (q : Nat → Bool) (l : List Nat) :
    ∀ j a, j < l.length →
    (l.set j a).countP q + (if q (l.getD j 0) then 1 else 0) =
    l.countP q + (if q a then 1 else 0) := by
  induction l with
  | nil => intro j a h; simp at h
  | cons x xs ih =>
    intro j a h
    cases j with
    | zero =>
      simp only [List.set, List.getD_cons_zero, List.countP_cons]
      omega
    | succ j' =>
      simp only [List.set, List.getD_cons_succ, List.countP_cons]
      have := ih j' a (by simpa using h)
      omega

/-- A witness failing the predicate keeps the count strictly below the
length. -/
theorem countP_lt_length (q : Nat → Bool) (l : List Nat) :
    ∀ j, j < l.length → q (l.getD j 0) = false → l.countP q < l.length := by
  induction l with
  | nil => intro j h; simp at h
  | cons x xs ih =>
    intro j h hq
    have hlen : (x :: xs).length = xs.length + 1 := rfl
    cases j with
    | zero =>
      rw [List.getD_cons_zero] at hq
      have hle := List.countP_le_length (p := q) (l := xs)
      simp only [List.countP_cons, hq]
      simp only [hlen]
      have hz : (if false = true then (1 : Nat) else 0) = 0 := by simp
      omega
    | succ j' =>
      rw [List.getD_cons_succ] at hq
      have := ih j' (by simpa using h) hq
      rw [List.countP_cons]
      simp only [hlen]
      have hx : (if q x then 1 else 0) ≤ 1 := by split <;> omega
      omega

/-- A witness separating two predicates (the weaker holds, the stronger
fails) makes the stronger count strictly smaller, given pointwise
implication. -/
theorem countP_lt_countP (qa qb : Nat → Bool) (l : List Nat)
    (hmono : ∀ x, qb x = true → qa x = true) :
    ∀ j, j < l.length → qa (l.getD j 0) = true → qb (l.getD j 0) = false →
    l.countP qb < l.countP qa := by
  induction l with
  | nil => intro j h; simp at h
  | cons x xs ih =>
    intro j h hqa hqb
    have hcount : xs.countP qb ≤ xs.countP qa := by
      apply List.countP_mono_left
      intro a _ hb
      exact hmono a hb
    cases j with
    | zero =>
      rw [List.getD_cons_zero] at hqa hqb
      simp only [List.countP_cons, hqa, hqb]
      have hz : (if False then (1 : Nat) else 0) = 0 := by simp
      have hz2 : (if false = true then (1 : Nat) else 0) = 0 := by simp
      have ho : (if True then (1 : Nat) else 0) = 1 := by simp
      omega
    | succ j' =>
      rw [List.getD_cons_succ] at hqa hqb
      have := ih j' (by simpa using h) hqa hqb
      rw [List.countP_cons, List.countP_cons]
      have hx : (if qb x = true then 1 else 0) ≤ (if qa x = true then 1 else 0) := by
        by_cases hqx : qb x = true
        · rw [if_pos hqx, if_pos (hmono x hqx)]
        · rw [if_neg hqx]
          omega
      omega

theorem countFree_set (l : List Nat) (j a : Nat) (hj : j < l.length) :
    countFree (l.set j a) + (if l.getD j 0 ≤ 1 then 1 else 0) =
    countFree l + (if a ≤ 1 then 1 else 0) := by
  have h := countP_set (fun off => decide (off ≤ 1)) l j a hj
  simpa [countFree, decide_eq_true_eq] using h

theorem countOld_set (l : List Nat) (j a : Nat) (hj : j < l.length) :
    countOld (l.set j a) + (if l.getD j 0 = 1 then 1 else 0) =
    countOld l + (if a = 1 then 1 else 0) := by
  have h := countP_set (fun off => decide (off = 1)) l j a hj
  simpa [countOld, decide_eq_true_eq] using h

theorem countOld_le_countFree (l : List Nat) : countOld l ≤ countFree l := by
  apply List.countP_mono_left
  intro x _ h
  simp only [decide_eq_true_eq] at h ⊢
  omega

theorem countFree_le_length (l : List Nat) : countFree l ≤ l.length :=
  List.countP_le_length _

theorem countOld_lt_countFree (l : List Nat) (j : Nat) (hj : j < l.length)
    (h0 : l.getD j 0 = 0) : countOld l < countFree l := by
  refine countP_lt_countP _ _ l ?_ j hj ?_ ?_
  · intro x h
    simp only [decide_eq_true_eq] at h ⊢
    omega
  · show decide (l.getD j 0 ≤ 1) = true
    rw [h0]
    decide
  · show decide (l.getD j 0 = 1) = false
    rw [h0]
    decide

theorem countFree_lt_length (l : List Nat) (j : Nat) (hj : j < l.length)
    (hoff : 1 < l.getD j 0) : countFree l < l.length := by
  apply countP_lt_length _ _ j hj
  simp only [decide_eq_false_iff_not]
  omega

/-- Slot index returned by a successful find is within the table. -/
theorem findSlot_j_lt (p : Page) (hs : Nat) (k : List Nat) (mode j : Nat)
    (hnum : p.num_slots = p.slots.length)
    (hfind : findSlot p hs k mode = some j) : j < p.slots.length := by
  have hpos := findSlot_pos p hs k mode j hfind
  simp only [findSlot] at hfind
  rw [hnum] at hfind
  exact findSlotAux_lt p.slots p.heap k mode p.slots.length
    (hs % p.slots.length) j (Nat.mod_lt _ (by omega)) hfind

/-- Characterization of a successful find at page level. -/
theorem findSlot_spec (p : Page) (hs : Nat) (k : List Nat) (mode j : Nat)
    (hfind : findSlot p hs k mode = some j) :
    p.slots.getD j 0 = 0 ∨ (mode = 1 ∧ p.slots.getD j 0 = 1) ∨
      (1 < p.slots.getD j 0 ∧ keyMatches p.heap (p.slots.getD j 0) k = true) := by
  simp only [findSlot] at hfind
  exact findSlotAux_spec p.slots p.heap k mode p.num_slots p.num_slots
    (hs % p.num_slots) j hfind

/-- Header invariant extracted from a consistent page. -/
theorem consistent_headerInv (p : Page) (hC : Consistent p) : HeaderInv p := by
  obtain ⟨hnum, hfree, hold, hfb, _⟩ := hC
  refine ⟨?_, ?_, hfb⟩
  · rw [hfree, hold]; exact countOld_le_countFree _
  · rw [hfree, hnum]; exact countFree_le_length _

/-- Tombstoning a used slot of a consistent page keeps the header
invariant: `free_slots` stays below the used slot's contribution. -/
theorem headerInv_deleteSlot (p : Page) (j : Nat) (hC : Consistent p)
    (hj : j < p.slots.length) (hoff : 1 < p.slots.getD j 0) :
    HeaderInv (deleteSlot p j) := by
  obtain ⟨hnum, hfree, hold, hfb, _⟩ := hC
  have h1 : countOld p.slots ≤ countFree p.slots := countOld_le_countFree _
  have h2 : countFree p.slots < p.slots.length := countFree_lt_length _ j hj hoff
  exact ⟨by simp [deleteSlot]; omega,
         by simp [deleteSlot]; omega,
         by simp [deleteSlot]; omega⟩

/-- mmc_read keeps the header invariant on every consistent page. -/
theorem headerInv_read (p : Page) (hs : Nat) (k : List Nat) (now : Nat)
    (hC : Consistent p) : HeaderInv (mmc_read p hs k now).2 := by
  have hInv : HeaderInv p := consistent_headerInv p hC
  rcases hfind : findSlot p hs k 0 with _ | j
  · simp only [mmc_read, hfind]
    exact hInv
  · simp only [mmc_read, hfind]
    by_cases hne : p.slots.getD j 0 = 0
    · rw [if_pos hne]
      exact hInv
    · rw [if_neg hne]
      rcases hlook : p.heap.lookup (p.slots.getD j 0) with _ | r
      · exact hInv
      · have hoff : 1 < p.slots.getD j 0 := by
          rcases findSlot_spec p hs k 0 j hfind with h | ⟨hm, _⟩ | ⟨h, _⟩
          · omega
          · omega
          · exact h
        have hj : j < p.slots.length := findSlot_j_lt p hs k 0 j hC.1 hfind
        simp only
        by_cases hexp : r.expire_time ≠ 0 ∧ now > r.expire_time
        · rw [if_pos hexp]
          exact headerInv_deleteSlot p j hC hj hoff
        · rw [if_neg hexp]
          exact hInv

/-- mmc_write keeps the header invariant on every consistent page. -/
theorem headerInv_write (p : Page) (hs f : Nat) (k v : List Nat)
    (now es : Nat) (hC : Consistent p) :
    HeaderInv (mmc_write p hs f k v now es).1 := by
  obtain ⟨hnum, hfree, hold, hfb, hfd⟩ := hC
  have hInv : HeaderInv p := consistent_headerInv p ⟨hnum, hfree, hold, hfb, hfd⟩
  rcases hfind : findSlot p hs k 1 with _ | j
  · simp only [mmc_write, hfind]
    exact hInv
  · have hj : j < p.slots.length := findSlot_j_lt p hs k 1 j hnum hfind
    have hmono : countOld p.slots ≤ countFree p.slots := countOld_le_countFree _
    have hle : countFree p.slots ≤ p.slots.length := countFree_le_length _
    simp only [mmc_write, hfind]
    by_cases hoff : 1 < p.slots.getD j 0
    · rw [if_pos hoff]
      have hlt : countFree p.slots < p.slots.length :=
        countFree_lt_length _ j hj hoff
      by_cases hkv : ROUNDLEN (KV_SlotLen k.length v.length) ≤
          (deleteSlot p j).free_bytes
      · rw [if_pos hkv]
        have hgd1 : (deleteSlot p j).slots.getD j 0 = 1 := by
          rw [(deleteSlot_fields _ _).1]
          exact getD_set_self _ _ _ hj
        refine ⟨?_, ?_, ?_⟩
        · rw [writeStore_old_slots, writeStore_free_slots, if_pos hgd1,
            (deleteSlot_fields _ _).2.2.2.2.1, (deleteSlot_fields _ _).2.2.2.1]
          omega
        · rw [writeStore_free_slots, writeStore_num_slots,
            (deleteSlot_fields _ _).2.2.2.1, (deleteSlot_fields _ _).2.2.1]
          omega
        · rw [writeStore_free_data, writeStore_free_bytes,
            writeStore_page_size, (deleteSlot_fields _ _).2.2.2.2.2.1,
            (deleteSlot_fields _ _).2.2.2.2.2.2.1,
            (deleteSlot_fields _ _).2.2.2.2.2.2.2]
          have hfb2 : (deleteSlot p j).free_bytes = p.free_bytes := rfl
          rw [hfb2] at hkv
          omega
      · rw [if_neg hkv]
        exact ⟨by simp [deleteSlot]; omega, by simp [deleteSlot]; omega,
          by simp [deleteSlot]; omega⟩
    · rw [if_neg hoff]
      by_cases hkv : ROUNDLEN (KV_SlotLen k.length v.length) ≤ p.free_bytes
      · rw [if_pos hkv]
        refine ⟨?_, ?_, ?_⟩
        · rw [writeStore_old_slots, writeStore_free_slots]
          by_cases hgd : p.slots.getD j 0 = 1
          · rw [if_pos hgd]
            omega
          · rw [if_neg hgd]
            have h0 : p.slots.getD j 0 = 0 := by omega
            have := countOld_lt_countFree p.slots j hj h0
            omega
        · rw [writeStore_free_slots, writeStore_num_slots]
          omega
        · rw [writeStore_free_data, writeStore_free_bytes,
            writeStore_page_size]
          omega
      · rw [if_neg hkv]
        exact hInv

/-- mmc_delete keeps the header invariant on every consistent page. -/
theorem headerInv_delete (p : Page) (hs : Nat) (k : List Nat)
    (hC : Consistent p) : HeaderInv (mmc_delete p hs k).1 := by
  have hInv : HeaderInv p := consistent_headerInv p hC
  rcases hfind : findSlot p hs k 2 with _ | j
  · simp only [mmc_delete, hfind]
    exact hInv
  · simp only [mmc_delete, hfind]
    by_cases hne : p.slots.getD j 0 = 0
    · rw [if_pos hne]
      exact hInv
    · rw [if_neg hne]
      have hoff : 1 < p.slots.getD j 0 := by
        rcases findSlot_spec p hs k 2 j hfind with h | ⟨hm, _⟩ | ⟨h, _⟩
        · omega
        · omega
        · exact h
      have hj : j < p.slots.length := findSlot_j_lt p hs k 2 j hC.1 hfind
      exact headerInv_deleteSlot p j hC hj hoff

/-- The reinsertion loop advances the scratch heap offset by exactly
the total rounded size of the inserted records. -/
theorem insertAll_offset (nn : Nat) :
    ∀ (keep : List Record) (tbl : List Nat) (hp : List (Nat × Record))
      (off : Nat) (tbl2 : List Nat) (hp2 : List (Nat × Record)) (off2 : Nat),
    insertAll nn keep (tbl, hp, off) = some (tbl2, hp2, off2) →
    off2 = off + (keep.map recSize).sum := by
  intro keep
  induction keep with
  | nil =>
    intro tbl hp off tbl2 hp2 off2 h
    simp only [insertAll] at h
    injection h with h2
    injection h2 with ha hb
    injection hb with hb1 hb2
    simp [← hb2]
  | cons r rest ih =>
    intro tbl hp off tbl2 hp2 off2 h
    simp only [insertAll] at h
    rcases hpe : probeEmpty tbl nn (r.slot_hash % nn) nn with _ | i
    · rw [hpe] at h
      simp at h
    · rw [hpe] at h
      simp only at h
      have := ih _ _ _ _ _ _ h
      simp only [List.map_cons, List.sum_cons]
      omega

/-- mmc_do_expunge re-establishes the header invariant whenever it
returns (the surviving records' rounded sizes together with the new
slot table fit in the page). -/
theorem headerInv_do_expunge (p : Page) (nn : Nat) (keep : List Record)
    (p' : Page)
    (hd : mmc_do_expunge p nn keep = some p')
    (hsz : (keep.map recSize).sum + nn * 4 + P_HEADERSIZE ≤ p.page_size) :
    HeaderInv p' := by
  rcases hins : insertAll nn keep (List.replicate nn 0, [], 0) with _ | st
  · rw [mmc_do_expunge, hins] at hd
    simp at hd
  · obtain ⟨tbl, hp2, off⟩ := st
    rw [mmc_do_expunge, hins] at hd
    simp only at hd
    injection hd with hd2
    subst hd2
    have hoff : off = 0 + (keep.map recSize).sum :=
      insertAll_offset nn keep _ _ 0 _ _ _ hins
    refine ⟨?_, ?_, ?_⟩
    · show (0 : Nat) ≤ nn - keep.length
      omega
    · show nn - keep.length ≤ nn
      omega
    · show (off + nn * 4 + P_HEADERSIZE) +
        ((p.page_size - nn * 4 - P_HEADERSIZE) - off) = p.page_size
      omega

/-- Claim C5: on every page whose header counters are consistent with
its slot table, every completed operation — read, write, delete,
delete_slot, and do_expunge (whose plan's records and slot table fit
the page) — preserves the header invariant
`0 ≤ old_slots ≤ free_slots ≤ num_slots` and
`free_data + free_bytes = page_size`. -/
theorem ops_preserve_header_invariant :
    (∀ (p : Page) (hs now : Nat) (k : List Nat),
      Consistent p → HeaderInv (mmc_read p hs k now).2) ∧
    (∀ (p : Page) (hs f now es : Nat) (k v : List Nat),
      Consistent p → HeaderInv (mmc_write p hs f k v now es).1) ∧
    (∀ (p : Page) (hs : Nat) (k : List Nat),
      Consistent p → HeaderInv (mmc_delete p hs k).1) ∧
    (∀ (p : Page) (j : Nat),
      Consistent p → j < p.slots.length → 1 < p.slots.getD j 0 →
      HeaderInv (deleteSlot p j)) ∧
    (∀ (p : Page) (nn : Nat) (keep : List Record) (p' : Page),
      mmc_do_expunge p nn keep = some p' →
      (keep.map recSize).sum + nn * 4 + P_HEADERSIZE ≤ p.page_size →
      HeaderInv p') :=
  ⟨fun p hs now k hC => headerInv_read p hs k now hC,
   fun p hs f now es k v hC => headerInv_write p hs f k v now es hC,
   fun p hs k hC => headerInv_delete p hs k hC,
   fun p j hC hj hoff => headerInv_deleteSlot p j hC hj hoff,
   fun p nn keep p' hd hsz => headerInv_do_expunge p nn keep p' hd hsz⟩

/-- Witness for C5 on the consistent page `pageC5`. -/
theorem ops_preserve_header_invariant_witness :
    HeaderInv (mmc_read pageC5 0 [1] 60).2 ∧
    HeaderInv (mmc_write pageC5 1 2 [3] [4] 60 0).1 ∧
    HeaderInv (mmc_delete pageC5 0 [1]).1 ∧
    HeaderInv (deleteSlot pageC5 0) ∧
    HeaderInv ((mmc_do_expunge pageC5 2 []).getD pageC5) :=
  ⟨ops_preserve_header_invariant.1 pageC5 0 60 [1] (by unfold Consistent; decide),
   ops_preserve_header_invariant.2.1 pageC5 1 2 60 0 [3] [4]
     (by unfold Consistent; decide),
   ops_preserve_header_invariant.2.2.1 pageC5 0 [1]
     (by unfold Consistent; decide),
   ops_preserve_header_invariant.2.2.2.1 pageC5 0
     (by unfold Consistent; decide) (by decide) (by decide),
   ops_preserve_header_invariant.2.2.2.2 pageC5 2 []
     ((mmc_do_expunge pageC5 2 []).getD pageC5) (by decide) (by decide)⟩

/-- A used, expired slot is placed in the out (expunge) partition by
the calc-expunge walk, in every mode other than 1 (mode 1 evicts it
anyway). -/
theorem expungePartition_out_mem :
    ∀ (l : List Nat) (heap : List (Nat × Record)) (mode now off : Nat)
      (r : Record) (acc : List Record × List Record × Nat),
    (r ∈ acc.1 ∨ (off ∈ l ∧ 1 < off ∧ heap.lookup off = some r ∧
      r.expire_time ≠ 0 ∧ now ≥ r.expire_time)) →
    r ∈ (l.foldl (partStep heap mode now) acc).1 := by
  intro l
  induction l with
  | nil =>
    intro heap mode now off r acc h
    rcases h with h | ⟨hmem, _⟩
    · simpa using h
    · simp at hmem
  | cons x xs ih =>
    intro heap mode now off r acc h
    have hstep : ∀ a : List Record × List Record × Nat,
        r ∈ a.1 → r ∈ (partStep heap mode now a x).1 := by
      intro a ha
      unfold partStep
      split
      · exact ha
      · rcases heap.lookup x with _ | rx
        · exact ha
        · simp only
          split
          · exact List.mem_append_left _ ha
          · split
            · exact List.mem_append_left _ ha
            · exact ha
    rcases h with h | ⟨hmem, hoff, hlook, he1, he2⟩
    · exact ih heap mode now off r _ (Or.inl (hstep acc h))
    · rcases List.mem_cons.mp hmem with hx | hxs
      · subst hx
        refine ih heap mode now off r _ (Or.inl ?_)
        unfold partStep
        rw [if_neg (by omega), hlook]
        simp only
        split
        · exact List.mem_append_right _ (by simp)
        · rw [if_pos ⟨he1, he2⟩]
          exact List.mem_append_right _ (by simp)
      · exact ih heap mode now off r _
          (Or.inr ⟨hxs, hoff, hlook, he1, he2⟩)

/-- Claim C10: expiry at the exact boundary is inconsistent between
operations.  A record whose non-zero `expire_time` equals the current
time is treated as live by `mmc_read` (strict `now > expire_time`: the
read hits and does not tombstone), while `mmc_calc_expunge` in modes 0
and 2 treats the same record as expired (`now >= expire_time`: its walk
places it in the evicted partition). -/
theorem expiry_boundary_inconsistent (p : Page) (hs now j : Nat)
    (k : List Nat) (r : Record)
    (hlen : p.num_slots = p.slots.length)
    (hfind : findSlot p hs k 0 = some j)
    (hne : ¬(p.slots.getD j 0 = 0))
    (hlook : p.heap.lookup (p.slots.getD j 0) = some r)
    (hexp : r.expire_time = now)
    (hnz : now ≠ 0) :
    (mmc_read p hs k now).1 = some (r.val, r.flags) ∧
    (∀ mode, mode = 0 ∨ mode = 2 → r ∈ (expungePartition p mode now).1) := by
  constructor
  · rw [mmc_read_hit p hs now k j r hfind hne hlook (by omega)]
  · intro mode hmode
    have hj : j < p.slots.length := findSlot_j_lt p hs k 0 j hlen hfind
    have hoff : 1 < p.slots.getD j 0 := by
      rcases findSlot_spec p hs k 0 j hfind with h | ⟨hm, _⟩ | ⟨h, _⟩
      · omega
      · omega
      · exact h
    have hmem : p.slots.getD j 0 ∈ p.slots := by
      rw [List.getD_eq_getElem?_getD]
      rw [List.getElem?_eq_getElem hj]
      exact List.getElem_mem ..
    exact expungePartition_out_mem p.slots p.heap mode now
      (p.slots.getD j 0) r ([], [], 0)
      (Or.inr ⟨hmem, hoff, hlook, by omega, by omega⟩)

/-- Witness for C10 on `pageC10` at the boundary second `now = 5`. -/
theorem expiry_boundary_inconsistent_witness :
    (mmc_read pageC10 0 [9] 5).1 = some ([1, 2], 8) ∧
    ({ last_access := 3, expire_time := 5, slot_hash := 0, flags := 8,
       key := [9], val := [1, 2] } : Record) ∈
      (expungePartition pageC10 0 5).1 ∧
    ({ last_access := 3, expire_time := 5, slot_hash := 0, flags := 8,
       key := [9], val := [1, 2] } : Record) ∈
      (expungePartition pageC10 2 5).1 :=
  have h := expiry_boundary_inconsistent pageC10 0 5 0 [9]
    { last_access := 3, expire_time := 5, slot_hash := 0, flags := 8,
      key := [9], val := [1, 2] }
    (by decide) (by decide) (by decide) (by decide) (by decide) (by decide)
  ⟨h.1, h.2 0 (Or.inl rfl), h.2 2 (Or.inr rfl)⟩

/-- Claim C8: whenever `mmc_calc_expunge` returns a plan (so not on the
mode-2 early-return path, which writes no slot count), the new slot
count equals `2 * num_slots + 1` exactly when the keep-candidates
(used, non-evicted slots counted before any LRU eviction) exceed 30% of
`num_slots` and either mode is 2 or the old heap has room for the
enlarged slot table; otherwise it equals `num_slots`. -/
theorem calc_expunge_new_num_slots (p : Page) (mode : Nat) (len : Int)
    (now : Nat) (plan : ExpungePlan)
    (hcalc : mmc_calc_expunge p mode len now = some plan) :
    (plan.new_num_slots = 2 * p.num_slots + 1 ↔
      (10 * (expungePartition p mode now).2.1.length > 3 * p.num_slots ∧
       (mode = 2 ∨
        (p.page_size - p.num_slots * 4 - P_HEADERSIZE) -
            (expungePartition p mode now).2.2 > (p.num_slots + 1) * 4))) ∧
    (plan.new_num_slots = 2 * p.num_slots + 1 ∨
     plan.new_num_slots = p.num_slots) := by
  have hnn : plan.new_num_slots =
      calcNewNumSlots p.num_slots (expungePartition p mode now).2.1.length
        (p.page_size - p.num_slots * 4 - P_HEADERSIZE)
        (expungePartition p mode now).2.2 mode := by
    simp only [mmc_calc_expunge] at hcalc
    split at hcalc
    · simp at hcalc
    · split at hcalc
      · injection hcalc with h
        subst h
        rfl
      · injection hcalc with h
        subst h
        rfl
  rw [hnn]
  unfold calcNewNumSlots
  split
  · rename_i hcond
    constructor
    · constructor
      · intro _
        exact ⟨hcond.1, hcond.2.elim (fun h => Or.inr h) (fun h => Or.inl h)⟩
      · intro _
        omega
    · left
      omega
  · rename_i hcond
    constructor
    · constructor
      · intro h
        exact absurd h (by omega)
      · intro h2
        exact absurd ⟨h2.1, h2.2.elim (fun h => Or.inr h) (fun h => Or.inl h)⟩
          hcond
    · right
      rfl

/-- Witness for C8: on `pageC8` (16 slots, 5 keep-candidates) a mode-2
expunge for a 200-byte record doubles the slot count to 33. -/
theorem calc_expunge_new_num_slots_witness :
    ((mmc_calc_expunge pageC8 2 200 60).getD
        ⟨0, [], []⟩).new_num_slots = 2 * pageC8.num_slots + 1 ∧
    10 * (expungePartition pageC8 2 60).2.1.length > 3 * pageC8.num_slots :=
  have h := calc_expunge_new_num_slots pageC8 2 200 60
    ((mmc_calc_expunge pageC8 2 200 60).getD ⟨0, [], []⟩) (by decide)
  ⟨h.1.mpr ⟨by decide, Or.inl rfl⟩, by decide⟩

/-- Counting effect of setting one scratch slot on the number of empty
slots. -/
theorem countZero_set (l : List Nat) (j a : Nat) (hj : j < l.length) :
    (l.set j a).countP (fun x => decide (x = 0)) +
      (if l.getD j 0 = 0 then 1 else 0) =
    l.countP (fun x => decide (x = 0)) + (if a = 0 then 1 else 0) := by
  have h := countP_set (fun x => decide (x = 0)) l j a hj
  simpa [decide_eq_true_eq] using h

/-- The scratch-table probe of `mmc_do_expunge` reaches an empty slot
whenever one exists within its fuel (`(start + kk) % n` is the slot the
probe visits at step `kk`). -/
theorem probeEmpty_of_exists (tbl : List Nat) (n : Nat) (hn : n = tbl.length) :
    ∀ fuel start, start < n →
    (∃ kk, kk < fuel ∧ tbl.getD ((start + kk) % n) 0 = 0) →
    ∃ i, probeEmpty tbl n start fuel = some i ∧ i < n ∧ tbl.getD i 0 = 0 := by
  intro fuel
  induction fuel with
  | zero =>
    intro start _ h
    obtain ⟨kk, hk, _⟩ := h
    omega
  | succ fuel ih =>
    intro start hstart h
    obtain ⟨kk, hkk, hz⟩ := h
    by_cases h0 : tbl.getD start 0 = 0
    · refine ⟨start, ?_, hstart, h0⟩
      rw [probeEmpty, if_pos h0]
    · have hkk0 : kk ≠ 0 := by
        intro hk0
        subst hk0
        rw [Nat.add_zero, Nat.mod_eq_of_lt hstart] at hz
        exact h0 hz
      have hnpos : 0 < n := by omega
      have hstart2 : (if n ≤ start + 1 then 0 else start + 1) < n := by
        split <;> omega
      have hs : (if n ≤ start + 1 then 0 else start + 1) = (start + 1) % n := by
        by_cases hc : n ≤ start + 1
        · rw [if_pos hc]
          have hEq : start + 1 = n := by omega
          rw [hEq, Nat.mod_self]
        · rw [if_neg hc, Nat.mod_eq_of_lt (by omega)]
      have heq : ((if n ≤ start + 1 then 0 else start + 1) + (kk - 1)) % n =
          (start + kk) % n := by
        rw [hs, Nat.mod_add_mod]
        congr 1
        omega
      obtain ⟨i, hpi, hilt, hzi⟩ := ih _ hstart2 ⟨kk - 1, by omega, by
        rw [heq]; exact hz⟩
      refine ⟨i, ?_, hilt, hzi⟩
      rw [probeEmpty, if_neg h0]
      exact hpi

/-- A nonempty count of empty slots yields an index holding one. -/
theorem exists_zero_slot (tbl : List Nat)
    (h : 0 < tbl.countP (fun x => decide (x = 0))) :
    ∃ z, z < tbl.length ∧ tbl.getD z 0 = 0 := by
  rw [List.countP_pos_iff] at h
  obtain ⟨a, hmem, ha⟩ := h
  simp only [decide_eq_true_eq] at ha
  subst ha
  obtain ⟨z, hz, hget⟩ := List.mem_iff_getElem.mp hmem
  refine ⟨z, hz, ?_⟩
  rw [List.getD_eq_getElem?_getD, List.getElem?_eq_getElem hz, hget]
  rfl

/-- The probe over the full fuel `n` finds an empty slot whenever the
table contains one. -/
theorem probeEmpty_finds (tbl : List Nat) (n start : Nat)
    (hn : n = tbl.length) (hstart : start < n)
    (hz : 0 < tbl.countP (fun x => decide (x = 0))) :
    ∃ i, probeEmpty tbl n start n = some i ∧ i < n ∧ tbl.getD i 0 = 0 := by
  obtain ⟨z, hzlt, hzg⟩ := exists_zero_slot tbl hz
  have hnpos : 0 < n := by omega
  refine probeEmpty_of_exists tbl n hn n start hstart ⟨(z + n - start) % n, ?_, ?_⟩
  · exact Nat.mod_lt _ hnpos
  · rw [Nat.add_mod_mod]
    have hsum : start + (z + n - start) = z + n := by omega
    rw [hsum, Nat.add_mod_right, Nat.mod_eq_of_lt (by omega)]
    exact hzg

/-- The reinsertion loop succeeds whenever the records to insert do not
outnumber the empty scratch slots. -/
theorem insertAll_some (nn : Nat) :
    ∀ (keep : List Record) (tbl : List Nat) (hp : List (Nat × Record))
      (off : Nat),
    tbl.length = nn →
    keep.length ≤ tbl.countP (fun x => decide (x = 0)) →
    (insertAll nn keep (tbl, hp, off)).isSome = true := by
  intro keep
  induction keep with
  | nil =>
    intro tbl hp off _ _
    simp [insertAll]
  | cons r rest ih =>
    intro tbl hp off hlen hcount
    have hz : 0 < tbl.countP (fun x => decide (x = 0)) := by
      have := rest.length
      simp only [List.length_cons] at hcount
      omega
    have hnpos : 0 < nn := by
      have := List.countP_le_length (p := fun x => decide (x = 0)) (l := tbl)
      omega
    obtain ⟨i, hpe, hilt, hzi⟩ := probeEmpty_finds tbl nn (r.slot_hash % nn)
      hlen.symm (Nat.mod_lt _ hnpos) hz
    simp only [insertAll]
    rw [hpe]
    apply ih
    · rw [List.length_set]
      exact hlen
    · have hset := countZero_set tbl i (off + nn * 4 + P_HEADERSIZE)
        (by omega)
      rw [if_pos hzi] at hset
      rw [if_neg (by simp [P_HEADERSIZE] :
        ¬(off + nn * 4 + P_HEADERSIZE = 0))] at hset
      simp only [List.length_cons] at hcount
      omega

/-- One partition step grows the keep-candidate list by at most one. -/
theorem partStep_ins_le (heap : List (Nat × Record)) (mode now : Nat)
    (acc : List Record × List Record × Nat) (x : Nat) :
    (partStep heap mode now acc x).2.1.length ≤ acc.2.1.length + 1 := by
  unfold partStep
  split
  · exact Nat.le_succ _
  · rcases heap.lookup x with _ | rx
    · exact Nat.le_succ _
    · simp only
      split
      · exact Nat.le_succ _
      · split
        · exact Nat.le_succ _
        · exact Nat.le_refl _

/-- The keep-candidates of the partition walk are bounded by the number
of slots walked. -/
theorem partition_ins_length (heap : List (Nat × Record)) (mode now : Nat) :
    ∀ (l : List Nat) (acc : List Record × List Record × Nat),
    ((l.foldl (partStep heap mode now) acc).2.1).length ≤
      acc.2.1.length + l.length := by
  intro l
  induction l with
  | nil => intro acc; simp
  | cons x xs ih =>
    intro acc
    have h1 := partStep_ins_le heap mode now acc x
    have h2 := ih (partStep heap mode now acc x)
    simp only [List.foldl_cons, List.length_cons]
    omega

/-- Insertion into the LRU-sorted list adds one element. -/
theorem insertByLA_length (r : Record) :
    ∀ l : List Record, (insertByLA r l).length = l.length + 1 := by
  intro l
  induction l with
  | nil => rfl
  | cons x xs ih =>
    unfold insertByLA
    split
    · simp
    · simp only [List.length_cons]
      omega

/-- The LRU sort preserves length. -/
theorem sortByLA_length :
    ∀ l : List Record, (sortByLA l).length = l.length := by
  intro l
  induction l with
  | nil => rfl
  | cons x xs ih =>
    unfold sortByLA
    rw [insertByLA_length, ih]
    rfl

/-- The eviction loop only shrinks the list of survivors. -/
theorem evictLoop_surv_le (thresh : Nat) :
    ∀ (l : List Record) (used : Nat),
    ((evictLoop thresh l used).2).length ≤ l.length := by
  intro l
  induction l with
  | nil => intro used; simp [evictLoop]
  | cons r rest ih =>
    intro used
    unfold evictLoop
    split
    · have := ih (used - recSize r)
      simp only [List.length_cons]
      omega
    · simp

/-- Empty-slot count of the zeroed scratch table. -/
theorem countZero_replicate (nn : Nat) :
    (List.replicate nn (0 : Nat)).countP (fun x => decide (x = 0)) = nn := by
  induction nn with
  | zero => rfl
  | succ n ih =>
    rw [List.replicate_succ, List.countP_cons]
    simp [ih]

/-- Claim C7 (amended): for every expunge plan `mmc_calc_expunge`
produces, the number of surviving records is at most (not always
strictly below) the new slot count, and that weaker bound still makes
every probe of the zero-initialized scratch slot table in
`mmc_do_expunge` find an empty slot before completing a cycle, so the
rebuild terminates (`mmc_do_expunge` returns `some`). -/
theorem calc_expunge_survivors_le_amended (p : Page) (mode : Nat)
    (len : Int) (now : Nat) (plan : ExpungePlan)
    (hlen : p.num_slots = p.slots.length)
    (hcalc : mmc_calc_expunge p mode len now = some plan) :
    plan.survivors.length ≤ plan.new_num_slots ∧
    (mmc_do_expunge p plan.new_num_slots plan.survivors).isSome = true := by
  have hins : (expungePartition p mode now).2.1.length ≤ p.num_slots := by
    have h := partition_ins_length p.heap mode now p.slots ([], [], 0)
    simp only [List.length_nil] at h
    rw [hlen]
    simpa [expungePartition] using h
  have hnn : p.num_slots ≤ plan.new_num_slots ∧
      plan.survivors.length ≤ (expungePartition p mode now).2.1.length := by
    simp only [mmc_calc_expunge] at hcalc
    split at hcalc
    · simp at hcalc
    · split at hcalc
      · injection hcalc with h
        subst h
        constructor
        · show p.num_slots ≤ calcNewNumSlots p.num_slots _ _ _ mode
          unfold calcNewNumSlots
          split <;> omega
        · exact le_refl _
      · injection hcalc with h
        subst h
        constructor
        · show p.num_slots ≤ calcNewNumSlots p.num_slots _ _ _ mode
          unfold calcNewNumSlots
          split <;> omega
        · show ((evictLoop _ (sortByLA (expungePartition p mode now).2.1)
            (expungePartition p mode now).2.2).2).length ≤ _
          calc ((evictLoop _ (sortByLA (expungePartition p mode now).2.1)
                (expungePartition p mode now).2.2).2).length
              ≤ (sortByLA (expungePartition p mode now).2.1).length :=
                evictLoop_surv_le _ _ _
            _ = (expungePartition p mode now).2.1.length :=
                sortByLA_length _
  have hbound : plan.survivors.length ≤ plan.new_num_slots := by omega
  refine ⟨hbound, ?_⟩
  have hsome := insertAll_some plan.new_num_slots plan.survivors
    (List.replicate plan.new_num_slots 0) [] 0
    (List.length_replicate ..)
    (by rw [countZero_replicate]; exact hbound)
  rw [Option.isSome_iff_exists] at hsome
  obtain ⟨st, hst⟩ := hsome
  obtain ⟨tbl, hp2, off⟩ := st
  rw [mmc_do_expunge, hst]
  rfl

set_option maxRecDepth 100000 in
/-- Claim C7 counterexample: on `pageC7` (all 89 slots used by
unexpired records, no room to enlarge the slot table) a mode-0
`mmc_calc_expunge` returns `new_num_slots = 89` with all 89 records
surviving, so the survivor count is not strictly below the new slot
count. -/
theorem calc_expunge_strict_counterexample :
    (mmc_calc_expunge pageC7 0 0 60).isSome = true ∧
    ¬(((mmc_calc_expunge pageC7 0 0 60).getD ⟨0, [], []⟩).survivors.length <
      ((mmc_calc_expunge pageC7 0 0 60).getD ⟨0, [], []⟩).new_num_slots) := by
  decide

set_option maxRecDepth 100000 in
/-- Witness for the amended C7 on the same full page. -/
theorem calc_expunge_survivors_le_amended_witness :
    ((mmc_calc_expunge pageC7 0 0 60).getD ⟨0, [], []⟩).survivors.length ≤
      ((mmc_calc_expunge pageC7 0 0 60).getD ⟨0, [], []⟩).new_num_slots ∧
    (mmc_do_expunge pageC7
      ((mmc_calc_expunge pageC7 0 0 60).getD ⟨0, [], []⟩).new_num_slots
      ((mmc_calc_expunge pageC7 0 0 60).getD ⟨0, [], []⟩).survivors).isSome =
      true :=
  calc_expunge_survivors_le_amended pageC7 0 0 60
    ((mmc_calc_expunge pageC7 0 0 60).getD ⟨0, [], []⟩)
    (by decide) (by decide)

/-- Core of claim C6: for a 32-bit `h`, the code's shift-and-add step
`(h << 4) + (h >> 28)` equals the rotate-left-4 `(h << 4) | (h >> 28)`,
because the truncated left shift leaves the low 4 bits clear and the
right shift is below 16. -/
theorem hashStep_eq_spec (h b : Nat) (hh : h < 2 ^ 32) :
    hashStep h b = specHashStep h b := by
  unfold hashStep specHashStep rotl4
  have h1 : h <<< 4 = h * 2 ^ 4 := Nat.shiftLeft_eq h 4
  have h2 : h >>> 28 = h / 2 ^ 28 := Nat.shiftRight_eq_div_pow h 28
  have h3 : (h * 2 ^ 4) % 2 ^ 32 = 2 ^ 4 * (h % 2 ^ 28) := by
    rw [Nat.mul_comm h (2 ^ 4)]
    rw [show (2 : Nat) ^ 32 = 2 ^ 4 * 2 ^ 28 from by norm_num]
    rw [Nat.mul_mod_mul_left]
  have h4 : h / 2 ^ 28 < 2 ^ 4 := by
    rw [Nat.div_lt_iff_lt_mul (by norm_num : 0 < 2 ^ 28)]
    calc h < 2 ^ 32 := hh
      _ = 2 ^ 4 * 2 ^ 28 := by norm_num
      _ = 2 ^ 28 * 2 ^ 4 := Nat.mul_comm _ _
  rw [h1, h2, h3]
  congr 2
  exact Nat.mul_add_lt_is_or h4 (h % 2 ^ 28)

/-- The whole hash fold agrees between the code's step and the spec's
rotate step, for any 32-bit seed. -/
theorem hashFold_eq (key : List Nat) :
    ∀ h, h < 2 ^ 32 → key.foldl hashStep h = key.foldl specHashStep h := by
  induction key with
  | nil => intro h _; rfl
  | cons b bs ih =>
    intro h hh
    simp only [List.foldl_cons]
    rw [hashStep_eq_spec h b hh]
    apply ih
    exact Nat.mod_lt _ (by norm_num)

/-- Claim C6: `mmc_hash` iterates, from seed 0x92f7e3b1, a step equal
to rotate-left-4-then-add with 32-bit wraparound (the code's
`(h << 4) + (h >> 28) + b` equals `((h << 4) | (h >> 28)) + b`), and
returns `page_index = h mod num_pages`, `slot_hash = h div num_pages`. -/
theorem hash_rotate_left_spec :
    (∀ h b : Nat, h < 2 ^ 32 → hashStep h b = specHashStep h b) ∧
    (∀ (num_pages : Nat) (key : List Nat),
      mmc_hash num_pages key =
        (specHash key % num_pages, specHash key / num_pages)) := by
  constructor
  · exact hashStep_eq_spec
  · intro np key
    unfold mmc_hash specHash
    rw [hashFold_eq key MAGIC (by norm_num [MAGIC])]

/-- Witness for C6 at a concrete step input and the key "abc". -/
theorem hash_rotate_left_spec_witness :
    hashStep 5 3 = specHashStep 5 3 ∧
    mmc_hash 89 [97, 98, 99] =
      (specHash [97, 98, 99] % 89, specHash [97, 98, 99] / 89) :=
  ⟨hash_rotate_left_spec.1 5 3 (by norm_num),
   hash_rotate_left_spec.2 89 [97, 98, 99]⟩
